import Mathlib

/-!
Shallow embedding of the TrendTube pipeline (`trendtube.py`) and proofs of
the specification's testable properties.

Modelling conventions:
* Python lists become `List`, Python `None` becomes `Option.none`.
* A Python value that may raise becomes `Except Unit _`, with `.error ()`
  standing for any raised exception (`TypeError`, `IndexError`,
  `ZeroDivisionError`).
* `list(set(xs))` is modelled by `List.dedup` (Python's set order is
  unspecified; every property proved below is order-insensitive in the
  deduplicated part).
* Machine integers are `Nat`/`Int`; Python's float division in
  `like_ratio` is modelled with exact rationals.
* External collaborators (the metadata API, the nltk stop-word corpus)
  are parameters of the functions that consult them, per the spec's
  "external interfaces" section.
-/

namespace TrendTube

/-- Membership in Python's `string.punctuation`
(`!"#$%&'()*+,-./:;<=>?@[\]^_`{|}~`), i.e. the ASCII ranges
33–47, 58–64, 91–96 and 123–126. -/
def isPunct (c : Char) : Bool :=
  (33 ≤ c.toNat && c.toNat ≤ 47) || (58 ≤ c.toNat && c.toNat ≤ 64) ||
  (91 ≤ c.toNat && c.toNat ≤ 96) || (123 ≤ c.toNat && c.toNat ≤ 126)

/-- Helper for `pyWords`: collects maximal runs of non-whitespace
characters; `cur` is the (reversed) run currently being read. -/
def splitWsAux : List Char → List Char → List (List Char)
  | [], cur => if cur.isEmpty then [] else [cur.reverse]
  | c :: cs, cur =>
    if c.isWhitespace then
      if cur.isEmpty then splitWsAux cs []
      else cur.reverse :: splitWsAux cs []
    else splitWsAux cs (c :: cur)

/-- Python's `s.split()`: split on runs of whitespace, discarding empty
pieces. -/
def pyWords (s : String) : List String :=
  (splitWsAux s.toList []).map List.asString

/-- The punctuation-stripping step of `Video.split_title`: Python's
`title[1:-1]` / `title[1:]` / `title[:-1]` chain, removing at most one
leading and one trailing punctuation character. -/
def stripPunct (w : List Char) : List Char :=
  match w with
  | [] => []
  | c :: cs =>
    let lastc := (c :: cs).getLast (List.cons_ne_nil c cs)
    if isPunct c && isPunct lastc then ((c :: cs).drop 1).dropLast
    else if isPunct c then (c :: cs).drop 1
    else if isPunct lastc then (c :: cs).dropLast
    else c :: cs

/-- `stripPunct` lifted to `String`. -/
def stripTok (s : String) : String := (stripPunct s.toList).asString

/-- The token list computed by `Video.split_title`: whitespace tokens,
each stripped of one layer of edge punctuation, empties dropped,
deduplicated (`t = list(set(t))`). -/
def split_title_core (title : String) : List String :=
  (((pyWords title).map stripTok).filter (fun w => w != "")).dedup

/-- `Video.split_title(combine)`: the new value of `self._title`.
With `combine=True` the original title string is prepended
(`self._title = [self._title]; self._title.extend(t)`). -/
def split_title (title : String) (combine : Bool) : List String :=
  if combine then title :: split_title_core title else split_title_core title

/-- The split-tag token list of `Video.split_tags`:
`list(set([t for tag in self._tags for t in tag.split()]))`. -/
def split_tags_list (ts : List String) : List String :=
  (ts.flatMap pyWords).dedup

/-- `Video.split_tags(combine)`: the new value of `self._tags`, or an
error.  The guard is Python's `if self._tags:`, which is falsy both for
`None` and for the empty list, in which case the source raises
`TypeError`. -/
def split_tags (tags : Option (List String)) (combine : Bool) :
    Except Unit (List String) :=
  match tags with
  | some (t :: ts) =>
    let sp := split_tags_list (t :: ts)
    .ok (if combine then (t :: ts) ++ sp else sp)
  | _ => .error ()

/-- A YouTube video object (`class Video`).  The numeric statistics are
the values of the `int(...)` accessor properties; `tags` is `None` by
default, hence an `Option`; `made_for_kids` defaults to `None`. -/
structure Video where
  id : String
  title : String
  tags : Option (List String)
  duration : String
  view_count : Nat
  likes : Nat
  dislikes : Nat
  comment_count : Nat
  made_for_kids : Option Bool
deriving DecidableEq

/-- Round-half-to-even on rationals, Python's `round()` tie rule. -/
def roundHalfEven (q : ℚ) : ℤ :=
  if q - (⌊q⌋ : ℚ) < 1 / 2 then ⌊q⌋
  else if 1 / 2 < q - (⌊q⌋ : ℚ) then ⌊q⌋ + 1
  else if ⌊q⌋ % 2 = 0 then ⌊q⌋ else ⌊q⌋ + 1

/-- Python's `round(q, 2)`, on exact rationals. -/
def pyRound2 (q : ℚ) : ℚ := ((roundHalfEven (q * 100) : ℤ) : ℚ) / 100

/-- The `Video.like_ratio` property: `round(self.likes/self.dislikes, 2)`.
There is no zero-guard in the source, so `dislikes = 0` raises
`ZeroDivisionError` (modelled as `.error ()`).  The source computes in
binary floating point; the model uses exact rationals. -/
def like_ratio (v : Video) : Except Unit ℚ :=
  if v.dislikes = 0 then .error ()
  else .ok (pyRound2 ((v.likes : ℚ) / (v.dislikes : ℚ)))

/-- `Video.__remove_stopwords`: `[w for w in words if w.lower() not in
ignore]`.  The test `w.lower() in ignore` (the nltk corpus plus the
custom entries) is abstracted as the predicate `isStop`, an external
collaborator. -/
def remove_stopwords (isStop : String → Bool) (words : List String) :
    List String :=
  words.filter (fun w => !(isStop w))

/-- `Video.stop_tags`: `self._tags = self.__remove_stopwords(self._tags)`.
Iterating over `None` tags raises `TypeError`. -/
def stop_tags (isStop : String → Bool) (v : Video) : Except Unit Video :=
  match v.tags with
  | some ts => .ok { v with tags := some (remove_stopwords isStop ts) }
  | none => .error ()

/-- The body of `Trending.combine_tags`'s loop for one video: optionally
`vid.split_tags(combine=combine)`, then optionally `vid.stop_tags()`. -/
def processTags (isStop : String → Bool) (split comb stop : Bool)
    (v : Video) : Except Unit Video :=
  let step1 : Except Unit Video :=
    if split then
      match split_tags v.tags comb with
      | .ok ts => .ok { v with tags := some ts }
      | .error e => .error e
    else .ok v
  match step1 with
  | .error e => .error e
  | .ok v1 => if stop then stop_tags isStop v1 else .ok v1

/-- Python's `if vid.tags:` guard in `combine_tags`'s list comprehension:
falsy for `None` and for the empty list. -/
def tagsTruthy (v : Video) : Bool :=
  match v.tags with
  | some (_ :: _) => true
  | _ => false

/-- `Trending.combine_tags(split, combine, stop_words)`: iterates over
`[vid for vid in self._videos if vid.tags]`, processes each such video
in place, and extends the flat tag sequence `acc` with the processed
video's tags.  Returns the updated video list and flat tag sequence. -/
def combine_tags (isStop : String → Bool) (split comb stop : Bool) :
    List Video → List String → Except Unit (List Video × List String)
  | [], acc => .ok ([], acc)
  | v :: vs, acc =>
    if tagsTruthy v then
      match processTags isStop split comb stop v with
      | .error e => .error e
      | .ok v1 =>
        match combine_tags isStop split comb stop vs
            (acc ++ v1.tags.getD []) with
        | .error e => .error e
        | .ok (vs1, acc1) => .ok (v1 :: vs1, acc1)
    else
      match combine_tags isStop split comb stop vs acc with
      | .error e => .error e
      | .ok (vs1, acc1) => .ok (v :: vs1, acc1)

/-- The tags a single video contributes to the flat tag sequence when it
is processed by `combine_tags`. -/
def tagContribution (isStop : String → Bool) (split comb stop : Bool)
    (v : Video) : List String :=
  match processTags isStop split comb stop v with
  | .ok v1 => v1.tags.getD []
  | .error _ => []

/-- One per-video record of the metadata API response
(`items` entry: snippet, contentDetails, statistics, status, id).
`tags` and `commentCount` are the optional sub-fields. -/
structure ApiVideo where
  id : String
  title : String
  tags : Option (List String)
  duration : String
  viewCount : Nat
  likeCount : Nat
  dislikeCount : Nat
  commentCount : Option Nat
  madeForKids : Bool
deriving DecidableEq

/-- The `Video(**kwargs)` built by `Trending.get_videos` from one API
record: a missing `tags` field defaults to the empty list (not `None`),
a present one is lower-cased and deduplicated; a missing `commentCount`
defaults to `0`. -/
def mkVideo (r : ApiVideo) : Video :=
  { id := r.id
    title := r.title
    tags := some (match r.tags with
      | some ts => (ts.map String.toLower).dedup
      | none => [])
    duration := r.duration
    view_count := r.viewCount
    likes := r.likeCount
    dislikes := r.dislikeCount
    comment_count := r.commentCount.getD 0
    made_for_kids := some r.madeForKids }

/-- The batching loop of `Trending.get_videos`
(`count, num = 0, 50; while not finished: ...`): the consecutive ID
slices passed to the metadata call, starting at offset `count`. -/
def batches (ids : List α) (count : Nat) : List (List α) :=
  if count + 50 < ids.length then
    (ids.drop count).take 50 :: batches ids (count + 50)
  else
    [ids.drop count]
termination_by ids.length - count
decreasing_by omega

/-- `Trending.get_videos`: one metadata call per batch, each returned
record appended as a `Video` in response order; `fetch` abstracts the
external API (a batch call returns the records of the requested IDs in
request order).  `videos` is the pre-existing `self._videos` list. -/
def get_videos (fetch : String → ApiVideo) (ids : List String)
    (videos : List Video) : List Video :=
  videos ++ (batches ids 0).flatMap (fun b => b.map (fun i => mkVideo (fetch i)))

/-- Python's `if name:` for the `name: (str)` parameter of
`Trending.count`: truthy iff present and non-empty. -/
def nameTruthy : Option String → Bool
  | none => false
  | some s => s != ""

/-- Python's `elif index:` for the `index: (int)` parameter of
`Trending.count`: truthy iff present and nonzero. -/
def indexTruthy : Option Int → Bool
  | none => false
  | some i => i != 0

/-- Python's `l[i]` for an `int` index: non-negative indices from the
front, negative indices from the end, `none` (an `IndexError`) when out
of range. -/
def pyIndex (l : List α) (i : Int) : Option α :=
  let j : Int := if i < 0 then (l.length : Int) + i else i
  if 0 ≤ j then l[j.toNat]? else none

/-- The shared branch body of `Trending.count` for one flat sequence:
`if name: return l.count(name) elif index: return l.count(l[index])`,
falling through to an implicit `None` when both are falsy. -/
def countIn (l : List String) (name : Option String) (index : Option Int) :
    Except Unit (Option Nat) :=
  if nameTruthy name then .ok (some (l.count (name.getD "")))
  else if indexTruthy index then
    match pyIndex l (index.getD 0) with
    | some x => .ok (some (l.count x))
    | none => .error ()
  else .ok none

/-- `Trending.count(title, tag, name, index)` over the flat sequences
`titles` and `tags`; the `else` branch returns `None` explicitly, and
falling out of the `if title:`/`elif tag:` branches returns `None`
implicitly. -/
def count (titles tags : List String) (title tag : Bool)
    (name : Option String) (index : Option Int) : Except Unit (Option Nat) :=
  if title then countIn titles name index
  else if tag then countIn tags name index
  else .ok none

/-- The distinct elements of `xs` in order of first occurrence: the key
order of the Python dict comprehension
`{x: xs.count(x) for x in xs if ...}`. -/
def firstOccs : List String → List String
  | [] => []
  | x :: xs => x :: (firstOccs xs).filter (fun y => y != x)

/-- The comparison of `sorted(..., key=lambda kv: kv[1])`: ascending by
occurrence count. -/
def freqLE (p q : String × Nat) : Prop := p.2 ≤ q.2

instance : DecidableRel freqLE :=
  fun p q => inferInstanceAs (Decidable (p.2 ≤ q.2))

instance : IsTotal (String × Nat) freqLE :=
  ⟨fun p q => Nat.le_total p.2 q.2⟩

instance : IsTrans (String × Nat) freqLE :=
  ⟨fun _ _ _ h1 h2 => Nat.le_trans h1 h2⟩

/-- The dict comprehension of `Trending.find_tag_frequencies`:
each distinct element of `xs` (in first-occurrence order) mapped to its
occurrence count, keeping entries with count `≥ threshold`. -/
def freqPre (xs : List String) (threshold : Int) : List (String × Nat) :=
  ((firstOccs xs).map (fun t => (t, xs.count t))).filter
    (fun p => decide (threshold ≤ (p.2 : Int)))

/-- `Trending.find_tag_frequencies(threshold)`: the dict comprehension
sorted ascending by count with Python's `sorted`, read off as the
ordered key/value sequence of the resulting dict.  Python's sort is
stable; stable sorts by one total preorder agree extensionally, and the
sort is modelled by the stable `List.insertionSort`. -/
def find_tag_frequencies (xs : List String) (threshold : Int) :
    List (String × Nat) :=
  (freqPre xs threshold).insertionSort freqLE

/-- `Trending.find_title_frequencies(threshold)`: textually the same
computation as `find_tag_frequencies`, over the flat title sequence. -/
def find_title_frequencies (xs : List String) (threshold : Int) :
    List (String × Nat) :=
  (freqPre xs threshold).insertionSort freqLE

/-! ### Helper lemmas about `firstOccs` and `freqPre` -/

theorem mem_firstOccs {a : String} : ∀ {xs : List String},
    a ∈ firstOccs xs ↔ a ∈ xs := by
  intro xs
  induction xs with
  | nil => simp [firstOccs]
  | cons x xs ih =>
    simp only [firstOccs, List.mem_cons, List.mem_filter]
    constructor
    · rintro (rfl | ⟨h, _⟩)
      · exact .inl rfl
      · exact .inr (ih.mp h)
    · rintro (rfl | h)
      · exact .inl rfl
      · by_cases hax : a = x
        · exact .inl hax
        · exact .inr ⟨ih.mpr h, by simpa using hax⟩

theorem nodup_firstOccs : ∀ xs : List String, (firstOccs xs).Nodup
  | [] => by simp [firstOccs]
  | x :: xs => by
    simp only [firstOccs]
    refine List.nodup_cons.mpr ⟨?_, (nodup_firstOccs xs).filter _⟩
    intro hmem
    have h := (List.mem_filter.mp hmem).2
    simp at h

theorem firstOccs_pairwise : ∀ xs : List String,
    (firstOccs xs).Pairwise (fun a b => xs.indexOf a < xs.indexOf b)
  | [] => by simp [firstOccs]
  | x :: xs => by
    simp only [firstOccs]
    refine List.pairwise_cons.mpr ⟨?_, ?_⟩
    · intro b hb
      have hbx : b ≠ x := by simpa using (List.mem_filter.mp hb).2
      rw [List.indexOf_cons_self, List.indexOf_cons_ne _ (Ne.symm hbx)]
      exact Nat.succ_pos _
    · refine List.Pairwise.imp_of_mem ?_
        ((firstOccs_pairwise xs).filter (fun y => y != x))
      intro a b ha hb hlt
      have hax : a ≠ x := by simpa using (List.mem_filter.mp ha).2
      have hbx : b ≠ x := by simpa using (List.mem_filter.mp hb).2
      rw [List.indexOf_cons_ne _ (Ne.symm hax),
        List.indexOf_cons_ne _ (Ne.symm hbx)]
      omega

theorem freqPre_mem {xs : List String} {k : Int} {p : String × Nat}
    (h : p ∈ freqPre xs k) :
    p.1 ∈ xs ∧ p.2 = xs.count p.1 ∧ k ≤ (p.2 : Int) := by
  obtain ⟨hm, hk⟩ := List.mem_filter.mp h
  obtain ⟨t, ht, rfl⟩ := List.mem_map.mp hm
  exact ⟨mem_firstOccs.mp ht, rfl, by simpa using hk⟩

theorem freqPre_complete {xs : List String} {k : Int} {a : String}
    (ha : a ∈ xs) (hk : k ≤ (xs.count a : Int)) :
    (a, xs.count a) ∈ freqPre xs k := by
  refine List.mem_filter.mpr ⟨List.mem_map.mpr ⟨a, mem_firstOccs.mpr ha, rfl⟩, ?_⟩
  simpa using hk

theorem freqPre_keys_nodup (xs : List String) (k : Int) :
    ((freqPre xs k).map Prod.fst).Nodup := by
  have hsub : List.Sublist ((freqPre xs k).map Prod.fst)
      (((firstOccs xs).map (fun t => (t, xs.count t))).map Prod.fst) :=
    (List.filter_sublist _).map Prod.fst
  have : (((firstOccs xs).map (fun t => (t, xs.count t))).map Prod.fst) =
      firstOccs xs := by
    rw [List.map_map]; exact List.map_id _
  rw [this] at hsub
  exact (nodup_firstOccs xs).sublist hsub

theorem freqPre_nodup (xs : List String) (k : Int) : (freqPre xs k).Nodup :=
  (freqPre_keys_nodup xs k).of_map _

theorem freqPre_pairwise (xs : List String) (k : Int) :
    (freqPre xs k).Pairwise (fun p q => xs.indexOf p.1 < xs.indexOf q.1) := by
  refine List.Pairwise.filter _ ?_
  exact List.pairwise_map.mpr (firstOccs_pairwise xs)

/-! ### Helper lemmas about two-element sublists of duplicate-free lists -/

theorem pair_sublist_of_ne {α : Type} {l : List α} {a b : α}
    (ha : a ∈ l) (hb : b ∈ l) (hab : a ≠ b) :
    List.Sublist [a, b] l ∨ List.Sublist [b, a] l := by
  induction l with
  | nil => cases ha
  | cons x xs ih =>
    rcases List.mem_cons.mp ha with rfl | ha1
    · have hb1 : b ∈ xs := by
        rcases List.mem_cons.mp hb with rfl | h
        · exact absurd rfl hab
        · exact h
      exact .inl ((List.singleton_sublist.mpr hb1).cons₂ a)
    · rcases List.mem_cons.mp hb with rfl | hb1
      · exact .inr ((List.singleton_sublist.mpr ha1).cons₂ b)
      · rcases ih ha1 hb1 with h | h
        · exact .inl (h.cons x)
        · exact .inr (h.cons x)

theorem sublist_pair_antisymm {α : Type} {l : List α} (hnd : l.Nodup)
    {a b : α} (h1 : List.Sublist [a, b] l) (h2 : List.Sublist [b, a] l) :
    a = b := by
  induction l with
  | nil => exact absurd h1 (by simp)
  | cons x xs ih =>
    rcases List.nodup_cons.mp hnd with ⟨hx, hxs⟩
    cases h1 with
    | cons _ h1t =>
      cases h2 with
      | cons _ h2t => exact ih hxs h1t h2t
      | cons₂ h2t =>
        exact absurd (h1t.subset (by simp)) hx
    | cons₂ h1t =>
      cases h2 with
      | cons _ h2t =>
        exact absurd (h2t.subset (by simp)) hx
      | cons₂ h2t => rfl

theorem not_pair_self_sublist {α : Type} {l : List α} (hnd : l.Nodup)
    {a : α} (h : List.Sublist [a, a] l) : False :=
  (List.pairwise_iff_forall_sublist.mp hnd h) rfl

/-- C1: for every flat tag sequence and every threshold `k`,
`find_tag_frequencies(k)` maps each distinct element whose occurrence
count is at least `k` to that count, contains no entry below `k`, lists
each key once, is ordered non-decreasing by count with ties in
first-occurrence order, and `find_title_frequencies` is the same
computation over the flat title sequence. -/
theorem find_frequencies_spec (xs : List String) (k : Int) :
    (∀ p ∈ find_tag_frequencies xs k,
        p.2 = xs.count p.1 ∧ k ≤ (p.2 : Int)) ∧
    (∀ a ∈ xs, k ≤ (xs.count a : Int) →
        (a, xs.count a) ∈ find_tag_frequencies xs k) ∧
    ((find_tag_frequencies xs k).map Prod.fst).Nodup ∧
    (find_tag_frequencies xs k).Pairwise (fun p q => p.2 ≤ q.2) ∧
    (find_tag_frequencies xs k).Pairwise
      (fun p q => p.2 = q.2 → xs.indexOf p.1 < xs.indexOf q.1) ∧
    find_title_frequencies xs k = find_tag_frequencies xs k := by
  have hperm : (find_tag_frequencies xs k).Perm (freqPre xs k) :=
    List.perm_insertionSort _ _
  have hnd : (find_tag_frequencies xs k).Nodup :=
    hperm.nodup_iff.mpr (freqPre_nodup xs k)
  refine ⟨?_, ?_, ?_, ?_, ?_, rfl⟩
  · intro p hp
    exact (freqPre_mem (hperm.mem_iff.mp hp)).2
  · intro a ha hk
    exact hperm.mem_iff.mpr (freqPre_complete ha hk)
  · exact (hperm.map Prod.fst).nodup_iff.mpr (freqPre_keys_nodup xs k)
  · exact List.Pairwise.imp (fun h => h)
      (List.sorted_insertionSort freqLE (freqPre xs k))
  · rw [List.pairwise_iff_forall_sublist]
    intro a b hs heq
    by_cases hab : a = b
    · exact absurd (hab ▸ hs) (fun h => not_pair_self_sublist hnd h)
    · have hares : a ∈ freqPre xs k :=
        hperm.mem_iff.mp (hs.subset (by simp))
      have hbres : b ∈ freqPre xs k :=
        hperm.mem_iff.mp (hs.subset (by simp))
      rcases pair_sublist_of_ne hares hbres hab with hf | hf
      · exact List.pairwise_iff_forall_sublist.mp (freqPre_pairwise xs k) hf
      · exfalso
        have hpair : List.Pairwise freqLE [b, a] :=
          List.pairwise_pair.mpr (le_of_eq heq.symm)
        have hres : List.Sublist [b, a] (find_tag_frequencies xs k) :=
          List.sublist_insertionSort hpair hf
        exact hab (sublist_pair_antisymm hnd hs hres)

/-- Witness for `find_frequencies_spec` at the flat sequence
`["b", "a", "a"]` and threshold `1`. -/
theorem find_frequencies_spec_witness :
    ("a", (["b", "a", "a"] : List String).count "a") ∈
      find_tag_frequencies ["b", "a", "a"] 1 :=
  (find_frequencies_spec ["b", "a", "a"] 1).2.1 "a" (by decide) (by decide)

/-! ### Helper lemmas about the `get_videos` batching loop -/

theorem batches_flatten (ids : List α) (count : Nat) :
    (batches ids count).flatten = ids.drop count := by
  rw [batches]
  split
  case isTrue h =>
    rw [List.flatten_cons, batches_flatten ids (count + 50)]
    have hd : ids.drop (count + 50) = (ids.drop count).drop 50 := by
      rw [List.drop_drop]
    rw [hd, List.take_append_drop]
  case isFalse h => simp
termination_by ids.length - count
decreasing_by omega

theorem batches_length_le (ids : List α) (count : Nat) :
    ∀ b ∈ batches ids count, b.length ≤ 50 := by
  intro b hb
  rw [batches] at hb
  split at hb
  case isTrue h =>
    rcases List.mem_cons.mp hb with rfl | hb1
    · simp [List.length_take]
    · exact batches_length_le ids (count + 50) b hb1
  case isFalse h =>
    rcases List.mem_cons.mp hb with rfl | hb1
    · simp only [List.length_drop]; omega
    · simp at hb1
termination_by ids.length - count
decreasing_by omega

theorem batches_sizes_120 (ids : List α) (h : ids.length = 120) :
    (batches ids 0).map List.length = [50, 50, 20] := by
  rw [batches, if_pos (by omega : 0 + 50 < ids.length)]
  rw [batches, if_pos (by omega : 0 + 50 + 50 < ids.length)]
  rw [batches, if_neg (by omega : ¬ 0 + 50 + 50 + 50 < ids.length)]
  simp [List.length_take, List.length_drop, h]

/-- C2: `get_videos` partitions the discovered ID sequence into
consecutive chunks of at most 50 identifiers, one metadata call per
chunk, appending the fetched records in discovery order; a 120-ID
discovery result gives exactly the batch sizes 50, 50, 20. -/
theorem get_videos_spec (fetch : String → ApiVideo) (ids : List String)
    (videos : List Video) :
    (batches ids 0).flatten = ids ∧
    (∀ b ∈ batches ids 0, b.length ≤ 50) ∧
    get_videos fetch ids videos =
      videos ++ ids.map (fun i => mkVideo (fetch i)) ∧
    (ids.length = 120 → (batches ids 0).map List.length = [50, 50, 20]) := by
  refine ⟨by simpa using batches_flatten ids 0, batches_length_le ids 0,
    ?_, batches_sizes_120 ids⟩
  unfold get_videos
  congr 1
  rw [List.flatMap_def, ← List.map_flatten, batches_flatten, List.drop_zero]

/-- Witness for `get_videos_spec`: a concrete 120-ID discovery result is
fetched in batches of sizes 50, 50, 20. -/
theorem get_videos_spec_witness :
    (batches (List.replicate 120 "x") 0).map List.length = [50, 50, 20] :=
  (get_videos_spec (fun i => ⟨i, "", none, "", 0, 0, 0, none, false⟩)
    (List.replicate 120 "x") []).2.2.2 (by simp)

/-- C3 counterexample: the claimed properties fail as stated.  The title
`"!!!"` (even with `combine=False`) leaves the token `"!"`, which is a
retained leading/trailing punctuation character; with `combine=True` the
prepended original title produces a duplicate for the title `"hello"`
and an empty element for the empty title. -/
theorem split_title_claim_cex :
    ("!" ∈ split_title "!!!" false ∧ isPunct '!' = true) ∧
    ¬ (split_title "hello" true).Nodup ∧
    "" ∈ split_title "" true := by decide

/-- C3 (amended): with `combine=false`, `split_title` leaves only
non-empty, duplicate-free tokens, each a whitespace word of the title
with at most one leading and one trailing punctuation character
stripped; with `combine=true` the original title string is prepended as
an extra first element; the example title `"Top 10 (AMAZING) Moments!"`
yields exactly the tokens Top, 10, AMAZING, Moments. -/
theorem split_title_spec (title : String) :
    (∀ w ∈ split_title title false, w ≠ "") ∧
    (split_title title false).Nodup ∧
    (∀ w ∈ split_title title false, ∃ tok ∈ pyWords title, w = stripTok tok) ∧
    split_title title true = title :: split_title title false ∧
    split_title "Top 10 (AMAZING) Moments!" false =
      ["Top", "10", "AMAZING", "Moments"] := by
  have hfalse : split_title title false =
      (((pyWords title).map stripTok).filter (fun w => w != "")).dedup := by
    simp [split_title, split_title_core]
  refine ⟨?_, ?_, ?_, by simp [split_title], by decide⟩
  · intro w hw
    rw [hfalse] at hw
    have h2 := (List.mem_filter.mp (List.mem_dedup.mp hw)).2
    simpa using h2
  · rw [hfalse]; exact List.nodup_dedup _
  · intro w hw
    rw [hfalse] at hw
    have h1 := (List.mem_filter.mp (List.mem_dedup.mp hw)).1
    obtain ⟨tok, htok, hwe⟩ := List.mem_map.mp h1
    exact ⟨tok, htok, hwe.symm⟩

/-- Witness for `split_title_spec` at the title `"a b"`. -/
theorem split_title_spec_witness :
    "a" ≠ "" ∧ (split_title "a b" false).Nodup :=
  ⟨(split_title_spec "a b").1 "a" (by decide), (split_title_spec "a b").2.1⟩

/-- C5 counterexample: a non-null but empty tag collection also fails,
with either value of `combine`, although the claim promises that every
non-null tag collection is split. -/
theorem split_tags_claim_cex :
    split_tags (some ([] : List String)) false = .error () ∧
    split_tags (some ([] : List String)) true = .error () :=
  ⟨rfl, rfl⟩

/-- C5 (amended): `split_tags` on null tags always fails; on a non-null
and non-empty tag collection it splits every tag on whitespace,
deduplicates across the resulting tokens, and replaces
(`combine=false`) or extends (`combine=true`) the tag sequence. -/
theorem split_tags_spec (ts : List String) (h : ts ≠ []) :
    (∀ c : Bool, split_tags none c = .error ()) ∧
    ∃ t : List String, t.Nodup ∧
      (∀ w, w ∈ t ↔ ∃ tag ∈ ts, w ∈ pyWords tag) ∧
      split_tags (some ts) false = .ok t ∧
      split_tags (some ts) true = .ok (ts ++ t) := by
  match ts, h with
  | t0 :: ts0, _ =>
    refine ⟨fun c => rfl, split_tags_list (t0 :: ts0),
      List.nodup_dedup _, ?_, rfl, rfl⟩
    intro w
    simp [split_tags_list, List.mem_dedup, List.mem_flatMap]

/-- Witness for `split_tags_spec` at the tag collection `["a b"]`. -/
theorem split_tags_spec_witness :
    (∀ c : Bool, split_tags none c = .error ()) ∧
    ∃ t : List String, t.Nodup ∧
      (∀ w, w ∈ t ↔ ∃ tag ∈ ["a b"], w ∈ pyWords tag) ∧
      split_tags (some ["a b"]) false = .ok t ∧
      split_tags (some ["a b"]) true = .ok (["a b"] ++ t) :=
  split_tags_spec ["a b"] (by decide)

/-- C10: `get_videos` stores an empty tag list (never `None`) for every
fetched video whose API record lacks a `tags` field, and `split_tags`
fails on an empty tag list exactly as on a null one, so it always fails
on such videos. -/
theorem get_videos_tags_spec (fetch : String → ApiVideo) (ids : List String)
    (c : Bool) :
    (∀ r : ApiVideo, r.tags = none → (mkVideo r).tags = some []) ∧
    (∀ v ∈ get_videos fetch ids [], v.tags ≠ none) ∧
    split_tags (some []) c = .error () ∧
    split_tags none c = .error () ∧
    (∀ v : Video, v.tags = some [] → split_tags v.tags c = .error ()) := by
  refine ⟨?_, ?_, rfl, rfl, ?_⟩
  · intro r hr; simp [mkVideo, hr]
  · intro v hv
    unfold get_videos at hv
    simp only [List.nil_append] at hv
    obtain ⟨b, hb, hvb⟩ := List.mem_flatMap.mp hv
    obtain ⟨i, hi, rfl⟩ := List.mem_map.mp hvb
    simp [mkVideo]
  · intro v hv; rw [hv]; rfl

/-! ### Rounding lemmas for `like_ratio` -/

theorem roundHalfEven_close (q : ℚ) :
    |((roundHalfEven q : ℤ) : ℚ) - q| ≤ 1 / 2 := by
  have hf : ((⌊q⌋ : ℤ) : ℚ) ≤ q := Int.floor_le q
  have hc : q < ((⌊q⌋ : ℤ) : ℚ) + 1 := Int.lt_floor_add_one q
  unfold roundHalfEven
  split_ifs with h1 h2 h3 <;>
    (rw [abs_le]; push_cast; constructor <;> linarith)

theorem pyRound2_close (q : ℚ) :
    |pyRound2 q - q| ≤ 1 / 200 ∧ ∃ n : ℤ, pyRound2 q = (n : ℚ) / 100 := by
  constructor
  · have h := roundHalfEven_close (q * 100)
    rw [abs_le] at h
    have he : pyRound2 q - q =
        (((roundHalfEven (q * 100) : ℤ) : ℚ) - q * 100) / 100 := by
      unfold pyRound2; ring
    rw [he, abs_le]
    constructor <;> linarith
  · exact ⟨roundHalfEven (q * 100), rfl⟩

/-- C6: for nonzero dislikes, `like_ratio` is the quotient
likes/dislikes rounded to two decimal places (an integer multiple of
1/100 within 1/200 of the exact quotient); for zero dislikes the
property raises a runtime arithmetic fault — there is no zero-guard. -/
theorem like_ratio_spec (v : Video) :
    (v.dislikes = 0 → like_ratio v = .error ()) ∧
    (v.dislikes ≠ 0 → ∃ q : ℚ, like_ratio v = .ok q ∧
      (∃ n : ℤ, q = (n : ℚ) / 100) ∧
      |q - (v.likes : ℚ) / (v.dislikes : ℚ)| ≤ 1 / 200) := by
  constructor
  · intro h; simp [like_ratio, h]
  · intro h
    refine ⟨pyRound2 ((v.likes : ℚ) / (v.dislikes : ℚ)), ?_, ?_, ?_⟩
    · simp [like_ratio, h]
    · exact (pyRound2_close _).2
    · exact (pyRound2_close _).1

/-- Witness for `like_ratio_spec` at a video with 1 like and 2
dislikes. -/
theorem like_ratio_spec_witness :
    ∃ q : ℚ, like_ratio ⟨"i", "t", none, "d", 0, 1, 2, 0, none⟩ = .ok q ∧
      (∃ n : ℤ, q = (n : ℚ) / 100) ∧
      |q - (((1 : Nat) : ℚ)) / (((2 : Nat) : ℚ))| ≤ 1 / 200 :=
  (like_ratio_spec ⟨"i", "t", none, "d", 0, 1, 2, 0, none⟩).2 (by decide)

/-- Witness for `get_videos_tags_spec` at a concrete tagless API
record. -/
theorem get_videos_tags_spec_witness :
    (mkVideo ⟨"i", "t", none, "d", 1, 2, 3, none, false⟩).tags = some [] ∧
    split_tags (mkVideo ⟨"i", "t", none, "d", 1, 2, 3, none, false⟩).tags
      false = .error () := by
  have h := get_videos_tags_spec
    (fun i => ⟨i, "t", none, "d", 1, 2, 3, none, false⟩) [] false
  refine ⟨h.1 _ rfl, ?_⟩
  rw [h.1 _ rfl]
  exact h.2.2.1

/-- C7 counterexample: with the title selector set and the empty string
passed as `name`, `count` returns the implicit `None` (Python's `if
name:` is falsy on `""`) although the occurrence count of `""` in the
flat sequence `[""]` is 1. -/
theorem count_claim_cex :
    count [""] [] true false (some "") none = .ok none ∧
    ([""] : List String).count "" = 1 :=
  ⟨rfl, by decide⟩

/-- C7 (amended): `count` returns the occurrence count of `name`
whenever `name` is a non-empty string; with `name` absent or empty and a
nonzero `index` it returns the count of the element at that (Python)
index, raising `IndexError` when the index is out of range; it returns
`None` whenever `name` is absent or empty and `index` is absent or
zero, and whenever both selectors are false. -/
theorem count_spec (titles tags : List String) (name : Option String)
    (index : Option Int) :
    (∀ s : String, name = some s → s ≠ "" →
      count titles tags true false name index = .ok (some (titles.count s)) ∧
      count titles tags false true name index = .ok (some (tags.count s))) ∧
    ((name = none ∨ name = some "") → ∀ i : Int, index = some i → i ≠ 0 →
      (∀ x, pyIndex titles i = some x →
        count titles tags true false name index =
          .ok (some (titles.count x))) ∧
      (pyIndex titles i = none →
        count titles tags true false name index = .error ()) ∧
      (∀ x, pyIndex tags i = some x →
        count titles tags false true name index =
          .ok (some (tags.count x))) ∧
      (pyIndex tags i = none →
        count titles tags false true name index = .error ())) ∧
    ((name = none ∨ name = some "") → (index = none ∨ index = some 0) →
      ∀ b1 b2 : Bool, count titles tags b1 b2 name index = .ok none) ∧
    (∀ name1 index1, count titles tags false false name1 index1 = .ok none) := by
  refine ⟨?_, ?_, ?_, fun name1 index1 => rfl⟩
  · rintro s rfl hs
    constructor <;> simp [count, countIn, nameTruthy, hs]
  · intro hname i hi hiz
    have hn : nameTruthy name = false := by
      rcases hname with rfl | rfl <;> rfl
    subst hi
    have hidx : indexTruthy (some i) = true := by
      simp [indexTruthy, hiz]
    refine ⟨fun x hx => ?_, fun hx => ?_, fun x hx => ?_, fun hx => ?_⟩ <;>
      simp [count, countIn, hn, hidx, hx]
  · intro hname hidx b1 b2
    have hn : nameTruthy name = false := by
      rcases hname with rfl | rfl <;> rfl
    have hi : indexTruthy index = false := by
      rcases hidx with rfl | rfl <;> rfl
    cases b1 <;> cases b2 <;> simp [count, countIn, hn, hi]

/-- Witness for `count_spec`: a non-empty literal name is counted. -/
theorem count_spec_witness :
    count ["a", "a"] [] true false (some "a") none =
      .ok (some ((["a", "a"] : List String).count "a")) :=
  ((count_spec ["a", "a"] [] (some "a") none).1 "a" rfl (by decide)).1

/-- C9 counterexample: a negative index also selects an element — with
the flat title sequence `["a", "b"]`, index `-1` selects the last
element `"b"` and returns its count 1, although the claim says only
strictly positive indices select an element. -/
theorem count_zero_index_cex :
    count ["a", "b"] [] true false none (some (-1)) = .ok (some 1) := rfl

/-- C9 (amended): with a selector set and no name, index `0` is treated
the same as an absent index and yields `None` (never the count of the
first element); any nonzero in-range index selects an element, negative
indices counting from the end (index `-1` selects the last element). -/
theorem count_zero_index_spec (titles tags : List String) :
    count titles tags true false none (some 0) = .ok none ∧
    count titles tags false true none (some 0) = .ok none ∧
    (∀ i : Int, i ≠ 0 → ∀ x, pyIndex titles i = some x →
      count titles tags true false none (some i) =
        .ok (some (titles.count x))) ∧
    (∀ x, titles.getLast? = some x →
      count titles tags true false none (some (-1)) =
        .ok (some (titles.count x))) := by
  have key : ∀ i : Int, i ≠ 0 → ∀ x, pyIndex titles i = some x →
      count titles tags true false none (some i) =
        .ok (some (titles.count x)) := by
    intro i hi x hx
    have hidx : indexTruthy (some i) = true := by simp [indexTruthy, hi]
    simp [count, countIn, nameTruthy, hidx, hx]
  refine ⟨rfl, rfl, key, ?_⟩
  intro x hx
  apply key (-1) (by decide)
  have hne : titles ≠ [] := by
    intro h; rw [h] at hx; simp at hx
  have hlen : 1 ≤ titles.length := List.length_pos.mpr hne
  unfold pyIndex
  rw [if_pos (by decide : (-1 : Int) < 0)]
  rw [if_pos (by omega : (0 : Int) ≤ (titles.length : Int) + (-1))]
  have ht : ((titles.length : Int) + (-1)).toNat = titles.length - 1 := by
    omega
  rw [ht]
  rw [List.getLast?_eq_getElem?] at hx
  exact hx

/-- Witness for `count_zero_index_spec` at the flat title sequence
`["a", "b"]`. -/
theorem count_zero_index_spec_witness :
    count ["a", "b"] [] true false none (some 0) = .ok none ∧
    count ["a", "b"] [] true false none (some (-1)) =
      .ok (some ((["a", "b"] : List String).count "b")) :=
  ⟨(count_zero_index_spec ["a", "b"] []).1,
   (count_zero_index_spec ["a", "b"] []).2.2.2 "b" (by decide)⟩

/-- C4 counterexample: the empty string can be a frequency-table key
(flat sequence `[""]`, threshold 1), but `count` with that key as
`name` returns the implicit `None`, not the stored count 1. -/
theorem count_roundtrip_cex :
    ("", 1) ∈ find_tag_frequencies [""] 1 ∧
    count [] [""] false true (some "") none = .ok none :=
  ⟨by decide, rfl⟩

/-- C4 (amended): for every non-empty-string key of a computed frequency
table, `count` with the matching selector and that key as `name`
returns exactly the count stored in the table. -/
theorem count_roundtrip (titles tags : List String) (k : Int) (a : String)
    (c : Nat) (ha : a ≠ "") :
    ((a, c) ∈ find_tag_frequencies tags k →
      count titles tags false true (some a) none = .ok (some c)) ∧
    ((a, c) ∈ find_title_frequencies titles k →
      count titles tags true false (some a) none = .ok (some c)) := by
  constructor
  · intro h
    have hc : c = tags.count a :=
      (freqPre_mem
        ((List.perm_insertionSort freqLE (freqPre tags k)).mem_iff.mp h)).2.1
    simp [count, countIn, nameTruthy, ha, hc]
  · intro h
    have hc : c = titles.count a :=
      (freqPre_mem
        ((List.perm_insertionSort freqLE (freqPre titles k)).mem_iff.mp h)).2.1
    simp [count, countIn, nameTruthy, ha, hc]

/-- Witness for `count_roundtrip` at the flat tag sequence
`["x", "x"]`, threshold 1 and key `"x"`. -/
theorem count_roundtrip_witness :
    count [] ["x", "x"] false true (some "x") none = .ok (some 2) :=
  (count_roundtrip [] ["x", "x"] 1 "x" 2 (by decide)).1 (by decide)

/-! ### Helper lemmas about `combine_tags` -/

theorem processTags_ok (isStop : String → Bool) (split comb stop : Bool)
    {v : Video} (h : tagsTruthy v = true) :
    ∃ v1, processTags isStop split comb stop v = .ok v1 := by
  match hv : v.tags with
  | none => simp [tagsTruthy, hv] at h
  | some [] => simp [tagsTruthy, hv] at h
  | some (t0 :: ts0) =>
    cases split <;> cases stop <;>
      simp [processTags, split_tags, stop_tags, hv]

/-- C8 counterexample: a video whose tags are non-null but empty is
silently skipped as well: with `split=True` it is left unmodified and
no error is raised, although processing it (as the claim demands for
every video with non-null tags) would apply `split_tags`, which fails
on an empty tag list. -/
theorem combine_tags_claim_cex :
    combine_tags (fun _ => false) true false false
      [⟨"v", "t", some [], "d", 0, 0, 0, 0, none⟩] [] =
      .ok ([⟨"v", "t", some [], "d", 0, 0, 0, 0, none⟩], []) ∧
    split_tags (some ([] : List String)) false = .error () :=
  ⟨rfl, rfl⟩

/-- C8 (amended): `combine_tags` never raises; it silently skips every
owned video whose tags are null **or empty** — such videos are left
unmodified in place and contribute nothing to the flat tag sequence —
while processing all videos with non-empty tags in order. -/
theorem combine_tags_spec (isStop : String → Bool) (split comb stop : Bool)
    (videos : List Video) (acc : List String) :
    ∃ r : List Video × List String,
      combine_tags isStop split comb stop videos acc = .ok r ∧
      r.1.length = videos.length ∧
      (∀ (i : Nat) (v : Video), videos[i]? = some v →
        tagsTruthy v = false → r.1[i]? = some v) ∧
      r.2 = acc ++ (videos.filter tagsTruthy).flatMap
        (tagContribution isStop split comb stop) := by
  induction videos generalizing acc with
  | nil =>
    refine ⟨([], acc), rfl, rfl, ?_, by simp⟩
    intro i v h
    simp at h
  | cons v vs ih =>
    by_cases hv : tagsTruthy v = true
    · obtain ⟨v1, hv1⟩ := processTags_ok isStop split comb stop hv
      obtain ⟨⟨r1, r2⟩, hr, hlen, hpres, hacc⟩ := ih (acc ++ v1.tags.getD [])
      have hcontrib : tagContribution isStop split comb stop v =
          v1.tags.getD [] := by
        simp [tagContribution, hv1]
      refine ⟨(v1 :: r1, r2), ?_, by simpa using hlen, ?_, ?_⟩
      · simp only [combine_tags, hv, if_true, hv1, hr]
      · intro i w hw hfw
        match i with
        | 0 =>
          rw [List.getElem?_cons_zero] at hw
          rw [Option.some_inj] at hw
          subst hw
          simp [hv] at hfw
        | n + 1 =>
          rw [List.getElem?_cons_succ] at hw ⊢
          exact hpres n w hw hfw
      · rw [List.filter_cons_of_pos hv, List.flatMap_cons, hcontrib, hacc]
        rw [List.append_assoc]
    · have hvf : tagsTruthy v = false := by simpa using hv
      obtain ⟨⟨r1, r2⟩, hr, hlen, hpres, hacc⟩ := ih acc
      refine ⟨(v :: r1, r2), ?_, by simpa using hlen, ?_, ?_⟩
      · simp only [combine_tags, hvf, Bool.false_eq_true, if_false, hr]
      · intro i w hw hfw
        match i with
        | 0 =>
          rw [List.getElem?_cons_zero] at hw ⊢
          exact hw
        | n + 1 =>
          rw [List.getElem?_cons_succ] at hw ⊢
          exact hpres n w hw hfw
      · rw [List.filter_cons_of_neg (by simp [hvf]), hacc]

/-- Witness for `combine_tags_spec` at a one-video state with null
tags. -/
theorem combine_tags_spec_witness :
    ∃ r : List Video × List String,
      combine_tags (fun _ => false) true true true
        [⟨"v", "t", none, "d", 0, 0, 0, 0, none⟩] ["z"] = .ok r ∧
      r.1.length =
        ([⟨"v", "t", none, "d", 0, 0, 0, 0, none⟩] : List Video).length ∧
      (∀ (i : Nat) (v : Video),
        [(⟨"v", "t", none, "d", 0, 0, 0, 0, none⟩ : Video)][i]? = some v →
        tagsTruthy v = false → r.1[i]? = some v) ∧
      r.2 = ["z"] ++
        ([(⟨"v", "t", none, "d", 0, 0, 0, 0, none⟩ : Video)].filter
          tagsTruthy).flatMap
          (tagContribution (fun _ => false) true true true) :=
  combine_tags_spec (fun _ => false) true true true
    [⟨"v", "t", none, "d", 0, 0, 0, 0, none⟩] ["z"]

end TrendTube
